import Mathlib

/-!
Verification development for the archive scanning and matching engine
(`main.py`): text normalization, the keyword matcher, the token-overlap
similarity scorer, the page-aware chunk comparator built on
`difflib.SequenceMatcher`, the candidate-file enumeration, and the worker
pool orchestration.  Texts are modelled as `List Char`; machine floats are
modelled by exact rationals; Python exceptions are modelled by `Except`.
-/

/-- Model of Python `str.lower()` restricted to the ASCII range (the only
range exercised here): every character is mapped through `Char.toLower`. -/
def pyLower (s : List Char) : List Char := s.map Char.toLower

/-- Model of `CLEAN_TRANS = str.maketrans('', '', ' \n\t\r')` applied via
`str.translate`: delete space, newline, tab and carriage return. -/
def cleanTranslate (s : List Char) : List Char :=
  s.filter (fun c => !(c == ' ' || c == '\n' || c == '\t' || c == '\r'))

/-- Lower-case then delete the four whitespace characters, the combination
`text.lower().translate(CLEAN_TRANS)` used by the matcher and comparator. -/
def cleanLower (s : List Char) : List Char := cleanTranslate (pyLower s)

/-- Python whitespace test for `str.strip()` (ASCII whitespace). -/
def pyIsSpace (c : Char) : Bool :=
  c == ' ' || c == '\t' || c == '\n' || c == '\r' || c == '\x0b' || c == '\x0c'

/-- Model of Python `str.strip()`: drop whitespace from both ends. -/
def pyStrip (s : List Char) : List Char :=
  ((s.dropWhile pyIsSpace).reverse.dropWhile pyIsSpace).reverse

/-- Model of Python `str.find`: index of the first occurrence of `needle`
in `hay`, `none` standing for Python's `-1`. -/
def pyFind (needle : List Char) : List Char → Option Nat
  | [] => if needle = [] then some 0 else none
  | c :: t => if needle <+: (c :: t) then some 0 else (pyFind needle t).map (· + 1)

/-- Model of `raw_text[s:e]` for nonnegative bounds. -/
def pySlice (l : List Char) (s e : Nat) : List Char := (l.drop s).take (e - s)

/-- Model of `.replace("\n", " ")`. -/
def nlToSpace (l : List Char) : List Char :=
  l.map (fun c => if c == '\n' then ' ' else c)

/-- The literal snippet decoration `f"...{snip}..."` uses. -/
def dots : List Char := "...".data

/-- The generic success message of `_check_match`. -/
def matchFoundMsg : List Char := "Match found".data

/-- Model of `_check_match(raw_text, query, query_rev, use_regex)` from
`main.py`.  The call `re.search(query, text_lower)` together with the
`.group(0)` access is abstracted by the oracle `reSearch`, which may raise
(`Except.error`), find nothing (`ok none`), or produce the matched
substring (`ok (some m)`); the surrounding `try/except: pass` is the
`.error` branch.  The returned pair is `(found, snippet)`. -/
def check_match (reSearch : List Char → Except Unit (Option (List Char)))
    (raw_text query : List Char) (query_rev : Option (List Char))
    (use_regex : Bool) : Bool × List Char :=
  if raw_text = [] then (false, [])
  else
    let text_lower := pyLower raw_text
    let fm : Bool × List Char :=
      if use_regex then
        match reSearch text_lower with
        | .error _ => (false, [])
        | .ok none => (false, [])
        | .ok (some m) => (true, m)
      else
        let text_compressed := cleanTranslate text_lower
        if query <:+: text_compressed then (true, query)
        else
          match query_rev with
          | some qr =>
              if qr ≠ [] ∧ qr <:+: text_compressed then (true, qr) else (false, [])
          | none => (false, [])
    if fm.1 then
      let term := if fm.2 = [] then query else fm.2
      let start0 := pyFind term text_lower
      let start1 := if start0 = none ∧ use_regex = false then some 0 else start0
      match start1 with
      | some st =>
          let s := st - 40
          let e := min text_lower.length (st + 40)
          (true, dots ++ pyStrip (nlToSpace (pySlice raw_text s e)) ++ dots)
      | none => (true, matchFoundMsg)
    else (false, [])

/-- An oracle that is never consulted (literal mode passes `use_regex =
false`, so the regex branch is dead). -/
def noRegex : List Char → Except Unit (Option (List Char)) := fun _ => Except.error ()

/-- The query normalization of `run_keyword_search` in literal mode:
`query.lower().replace(" ", "").replace("\t", "")` — note that only spaces
and tabs are removed, not newlines or carriage returns. -/
def normalize_query (q : List Char) : List Char :=
  (pyLower q).filter (fun c => !(c == ' ' || c == '\t'))

/-- Found-flag of the literal keyword search on one file, as performed by
`run_keyword_search` + `worker_search_file`: the worker receives the
normalized query `q_c`, its reversal `q_r`, and `use_regex = False`. -/
def keyword_search_found (full_text user_query : List Char) : Bool :=
  (check_match noRegex full_text (normalize_query user_query)
    (some (normalize_query user_query).reverse) false).1

/-- Helper: in literal mode, once the compressed-text test succeeds the
matcher reports `found = true`, whatever the snippet branch does. -/
lemma check_match_literal_found (oracle : List Char → Except Unit (Option (List Char)))
    (raw q : List Char) (qr : Option (List Char)) (hraw : raw ≠ [])
    (hq : q <:+: cleanTranslate (pyLower raw)) :
    (check_match oracle raw q qr false).1 = true := by
  unfold check_match
  rw [if_neg hraw]
  simp only [Bool.false_eq_true, if_false, if_pos hq, if_true, ite_self, and_true]
  cases hf : pyFind q (pyLower raw) with
  | none => simp [hf]
  | some st => simp [hf]

/-- C1 (counterexample): the claim fails for a query containing a newline.
The query `"a\nb"`, stripped of all whitespace and case-folded, is a
substring of the stripped folded text `"ab"`, yet the literal keyword
search reports no match, because `run_keyword_search` removes only spaces
and tabs from the query, so the retained `'\n'` can never occur in the
fully compressed text. -/
theorem C1_counterexample :
    (cleanTranslate (pyLower "a\nb".data) <:+: cleanTranslate (pyLower "ab".data)) ∧
    keyword_search_found "ab".data "a\nb".data = false := by decide

/-- C1 (amended): for every literal query whose space/tab-stripped
case-folded form already contains no whitespace (equivalently, the query
contains no newline or carriage return, so `run_keyword_search`'s
normalization coincides with full whitespace removal), and every file with
non-empty extracted text whose stripped case-folded content contains the
stripped case-folded query as a substring, the keyword search reports a
match on that file. -/
theorem C1_literal_substring_found (q t : List Char)
    (hq : normalize_query q = cleanLower q) (ht : t ≠ [])
    (hsub : cleanLower q <:+: cleanLower t) :
    keyword_search_found t q = true := by
  unfold keyword_search_found
  exact check_match_literal_found _ _ _ _ ht (by rw [hq]; exact hsub)

/-- C1 (witness): a concrete instance of the amended claim, with a query
containing spaces and a tab and a file differing in case. -/
theorem C1_witness :
    (normalize_query "He l\tLo".data = cleanLower "He l\tLo".data ∧
      "xhELLOy".data ≠ ([] : List Char) ∧
      cleanLower "He l\tLo".data <:+: cleanLower "xhELLOy".data) ∧
    keyword_search_found "xhELLOy".data "He l\tLo".data = true :=
  ⟨⟨by decide, by decide, by decide⟩,
    C1_literal_substring_found _ _ (by decide) (by decide) (by decide)⟩

/-- C2 (counterexample): with text `"a b"` and normalized query `"ab"`,
the compressed-text test succeeds while `text_lower.find` fails (the term
is not present in the uncompressed text), yet the snippet is NOT the
generic `"Match found"` message: the code resets the start index to `0`
and produces a windowed snippet instead. -/
theorem C2_counterexample :
    ("ab".data <:+: cleanTranslate (pyLower "a b".data)) ∧
    pyFind "ab".data (pyLower "a b".data) = none ∧
    (check_match noRegex "a b".data "ab".data (some "ba".data) false).1 = true ∧
    (check_match noRegex "a b".data "ab".data (some "ba".data) false).2 ≠ matchFoundMsg := by
  decide

/-- C2 (amended): in literal mode, when the compressed-text test succeeds
on the query itself but the term cannot be located in the case-folded
uncompressed text (`find` returns `-1`), `_check_match` still returns
`found = true`, but its snippet is the windowed snippet anchored at offset
`0` of the original text (the start index is reset to `0` by the
`if start == -1 and not use_regex` line), not the generic "match found"
message; the generic-message branch is unreachable in literal mode. -/
theorem C2_find_fail_snippet (oracle : List Char → Except Unit (Option (List Char)))
    (raw q : List Char) (qr : Option (List Char)) (hraw : raw ≠ [])
    (hq : q <:+: cleanTranslate (pyLower raw))
    (hfind : pyFind q (pyLower raw) = none) :
    check_match oracle raw q qr false =
      (true, dots ++ pyStrip (nlToSpace (pySlice raw 0 (min raw.length 40))) ++ dots) := by
  unfold check_match
  rw [if_neg hraw]
  simp only [Bool.false_eq_true, if_false, if_pos hq, if_true, ite_self, and_true, hfind]
  simp [pySlice, pyLower]

/-- C2 (witness): the amended claim at the concrete counterexample input;
the snippet produced is the window at offset `0`, namely `"...a b..."`. -/
theorem C2_witness :
    ("a b".data ≠ ([] : List Char) ∧
      "ab".data <:+: cleanTranslate (pyLower "a b".data) ∧
      pyFind "ab".data (pyLower "a b".data) = none) ∧
    check_match noRegex "a b".data "ab".data (some "ba".data) false =
      (true, dots ++ pyStrip (nlToSpace (pySlice "a b".data 0 (min "a b".data.length 40))) ++ dots) :=
  ⟨⟨by decide, by decide, by decide⟩,
    C2_find_fail_snippet noRegex _ _ _ (by decide) (by decide) (by decide)⟩

/-- C6: in regex mode, any error raised by the pattern search (invalid
pattern, or any failure while matching) is swallowed by the
`try/except: pass` around `re.search`: `_check_match` returns
`found = false` with an empty snippet, and nothing propagates to the
caller, so the scan over other files is unaffected (each worker is a pure
function of its own file). -/
theorem C6_regex_error_swallowed (oracle : List Char → Except Unit (Option (List Char)))
    (raw q : List Char) (qr : Option (List Char))
    (herr : oracle (pyLower raw) = Except.error ()) :
    check_match oracle raw q qr true = (false, []) := by
  unfold check_match
  by_cases hraw : raw = []
  · rw [if_pos hraw]
  · rw [if_neg hraw]
    simp only [herr, if_true]
    rfl

/-- C6 (witness): a concrete always-raising search oracle on a concrete
file: the matcher reports a clean non-match. -/
theorem C6_witness :
    (noRegex (pyLower "xy".data) = Except.error ()) ∧
    check_match noRegex "xy".data "q(".data none true = (false, []) :=
  ⟨rfl, C6_regex_error_swallowed noRegex "xy".data "q(".data none rfl⟩

/-- Python word character (`\w`) over the ASCII texts handled here. -/
def isWordChar (c : Char) : Bool := c.isAlphanum || c == '_'

/-- Maximal runs of word characters, modelling `re.findall(r'\w+', s)`;
`cur` holds the (reversed) run being accumulated. -/
def wordRuns (cur : List Char) : List Char → List (List Char)
  | [] => if cur = [] then [] else [cur.reverse]
  | c :: t =>
      if isWordChar c then wordRuns (c :: cur) t
      else if cur = [] then wordRuns [] t else cur.reverse :: wordRuns [] t

/-- Model of `get_tokens`: word runs of the lower-cased text, keeping only
those of length `> 3`, collected into a set. -/
def get_tokens (text : List Char) : Finset (List Char) :=
  ((wordRuns [] (pyLower text)).filter (fun w => decide (3 < w.length))).toFinset

/-- Python `round()` to the nearest integer (banker's rounding, half goes
to the even neighbour), on the exact rational modelling the float. -/
def pyRoundHalfEven (q : ℚ) : ℤ :=
  let f := ⌊q⌋
  let frac := q - f
  if frac < 1/2 then f
  else if 1/2 < frac then f + 1
  else if f % 2 = 0 then f else f + 1

/-- Python `round(x, 1)` on the exact rational modelling the float. -/
def roundTo1 (q : ℚ) : ℚ := (pyRoundHalfEven (q * 10) : ℚ) / 10

/-- Model of `worker_similarity_scan(task_data)`: the target path and its
extraction are supplied as the already-extracted `target_text`; the result
keeps the `(matched, reported score)` components of the returned tuple
(the path component is the job's identity and is dropped). -/
def worker_similarity_scan (ref_tokens : Finset (List Char))
    (target_text : List Char) : Bool × ℚ :=
  if target_text = [] then (false, 0)
  else
    let target_tokens := get_tokens target_text
    if target_tokens = ∅ then (false, 0)
    else
      let inter := (ref_tokens ∩ target_tokens).card
      let uni := (ref_tokens ∪ target_tokens).card
      let score : ℚ := if 0 < uni then (inter : ℚ) / (uni : ℚ) * 100 else 0
      if 5 < score then (true, roundTo1 score) else (false, 0)

/-- The Jaccard percentage of the spec: `|∩| / |∪| * 100`. -/
def jaccardPct (a b : Finset (List Char)) : ℚ :=
  ((a ∩ b).card : ℚ) / ((a ∪ b).card : ℚ) * 100

/-- The spec's example reference token set `{alpha, beta, gamma, delta}`. -/
def exRef : Finset (List Char) :=
  ["alpha".data, "beta".data, "gamma".data, "delta".data].toFinset

/-- C3: for every similarity job with non-empty reference and target token
sets, the job is positive iff the unrounded Jaccard percentage exceeds
`5.0`, in which case the reported score is that percentage rounded to one
decimal place; a job whose target token set is empty (in particular one
with empty target text) returns a non-match `(False, 0)`; and on the
spec's example (`{alpha,beta,gamma,delta}` against a target with tokens
`{alpha,beta,epsilon}`) the reported score is `40.0`. -/
theorem C3_similarity_scoring (refT : Finset (List Char)) (text : List Char) :
    ((refT ≠ ∅ → get_tokens text ≠ ∅ →
        (((worker_similarity_scan refT text).1 = true ↔
            5 < jaccardPct refT (get_tokens text)) ∧
          (5 < jaccardPct refT (get_tokens text) →
            worker_similarity_scan refT text =
              (true, roundTo1 (jaccardPct refT (get_tokens text)))))) ∧
      (get_tokens text = ∅ → worker_similarity_scan refT text = (false, 0))) ∧
    worker_similarity_scan exRef "alpha beta epsilon".data = (true, 40) := by
  refine ⟨⟨?_, ?_⟩, ?_⟩
  · intro _ htok
    have htext : text ≠ [] := by
      intro h
      rw [h] at htok
      exact htok (by decide)
    have huni : 0 < (refT ∪ get_tokens text).card :=
      Finset.card_pos.mpr
        (Finset.Nonempty.mono Finset.subset_union_right
          (Finset.nonempty_iff_ne_empty.mpr htok))
    unfold worker_similarity_scan jaccardPct
    rw [if_neg htext, if_neg htok]
    simp only [if_pos huni]
    by_cases h5 : 5 < ((refT ∩ get_tokens text).card : ℚ) / ((refT ∪ get_tokens text).card : ℚ) * 100
    · simp only [if_pos h5]
      constructor
      · simp [h5]
      · intro _
        trivial
    · simp only [if_neg h5]
      simp [h5]
  · intro htok
    unfold worker_similarity_scan
    by_cases htext : text = []
    · rw [if_pos htext]
    · rw [if_neg htext, if_pos htok]
  · have h2 : (exRef ∩ get_tokens "alpha beta epsilon".data).card = 2 := by decide
    have h5 : (exRef ∪ get_tokens "alpha beta epsilon".data).card = 5 := by decide
    have hne : ¬(get_tokens "alpha beta epsilon".data = ∅) := by decide
    have hnil : ¬("alpha beta epsilon".data = ([] : List Char)) := by decide
    rw [worker_similarity_scan, if_neg hnil]
    simp only [hne, if_false, h2, h5]
    norm_num [roundTo1, pyRoundHalfEven]

/-- C3 (witness): the similarity-scoring theorem applied at the spec's
concrete example, with every hypothesis discharged. -/
theorem C3_witness :
    (exRef ≠ ∅ ∧ get_tokens "alpha beta epsilon".data ≠ ∅ ∧
      5 < jaccardPct exRef (get_tokens "alpha beta epsilon".data)) ∧
    worker_similarity_scan exRef "alpha beta epsilon".data =
      (true, roundTo1 (jaccardPct exRef (get_tokens "alpha beta epsilon".data))) := by
  have h2 : (exRef ∩ get_tokens "alpha beta epsilon".data).card = 2 := by decide
  have h5 : (exRef ∪ get_tokens "alpha beta epsilon".data).card = 5 := by decide
  have hj : 5 < jaccardPct exRef (get_tokens "alpha beta epsilon".data) := by
    rw [jaccardPct, h2, h5]; norm_num
  exact ⟨⟨by decide, by decide, hj⟩,
    ((C3_similarity_scoring exRef "alpha beta epsilon".data).1.1 (by decide) (by decide)).2 hj⟩

/-- Callback events a pool run emits, in completion order. -/
inductive PoolEvent (α : Type) where
  | matched (r : α)
  | prog (pct : Nat)
  | done (n : Nat)
  deriving DecidableEq

/-- Model of the completion loop of `SearchLogic._run_pool`: `results` is
the list of completed futures in completion order (`Except.error` models
`f.result()` raising, swallowed by the inner `try/except: pass`);
`found` extracts `res[0]`; `stopAt k` is the value of `self.stop_flag`
observed at the check preceding the `k`-th processed completion.  The
progress percentage `int(count / total * 100)` is modelled exactly as the
floor `count * 100 / total`. -/
def run_pool_aux {α : Type} (found : α → Bool) (total : Nat) (stopAt : Nat → Bool) :
    List (Except Unit α) → Nat → Nat → List (PoolEvent α)
  | [], _, nmatched => [.done nmatched]
  | r :: rs, count, nmatched =>
      if stopAt count then [.done nmatched]
      else
        let count' := count + 1
        let step : List (PoolEvent α) × Nat :=
          match r with
          | .ok res => if found res then ([.matched res], nmatched + 1) else ([], nmatched)
          | .error _ => ([], nmatched)
        let progs : List (PoolEvent α) :=
          if count' % 5 = 0 ∨ count' = total then [.prog (count' * 100 / total)] else []
        step.1 ++ progs ++ run_pool_aux found total stopAt rs count' step.2

/-- One pool run: counters start at zero and `total = len(tasks)`. -/
def run_pool {α : Type} (found : α → Bool) (stopAt : Nat → Bool)
    (results : List (Except Unit α)) : List (PoolEvent α) :=
  run_pool_aux found results.length stopAt results 0 0

/-- Completed results counted as matches. -/
def matchedOf {α : Type} (found : α → Bool) (rs : List (Except Unit α)) : List α :=
  rs.filterMap (fun r =>
    match r with
    | .ok a => if found a then some a else none
    | .error _ => none)

/-- Number of jobs processed before the stop flag is observed, starting
from check index `k`, over a list of the given length. -/
def stopIndex (stopAt : Nat → Bool) : Nat → Nat → Nat
  | _, 0 => 0
  | k, n + 1 => if stopAt k then 0 else stopIndex stopAt (k + 1) n + 1

/-- Event classifier: done events. -/
def isDoneEvent {α : Type} : PoolEvent α → Bool
  | .done _ => true
  | _ => false

/-- Event projection: match callbacks. -/
def toMatched {α : Type} : PoolEvent α → Option α
  | .matched r => some r
  | _ => none

/-- Event projection: progress callbacks. -/
def toProg {α : Type} : PoolEvent α → Option Nat
  | .prog p => some p
  | _ => none

/-- Unfolding lemma for `matchedOf` on a raising result. -/
lemma matchedOf_cons_error {α : Type} (found : α → Bool) (e : Unit)
    (rs : List (Except Unit α)) :
    matchedOf found (.error e :: rs) = matchedOf found rs := rfl

/-- Structure of every pool run: some non-done events, then exactly one
final done event carrying the number of matches among the completions
processed before the stop flag was observed; the match events are exactly
the matches of that processed prefix. -/
lemma run_pool_aux_spec {α : Type} (found : α → Bool) (total : Nat) (stopAt : Nat → Bool) :
    ∀ (rs : List (Except Unit α)) (count nmatched : Nat),
      ∃ mid,
        run_pool_aux found total stopAt rs count nmatched =
          mid ++ [.done (nmatched +
            (matchedOf found (rs.take (stopIndex stopAt count rs.length))).length)] ∧
        (∀ e ∈ mid, isDoneEvent e = false) ∧
        mid.filterMap toMatched = matchedOf found (rs.take (stopIndex stopAt count rs.length)) := by
  intro rs
  induction rs with
  | nil =>
      intro count nmatched
      exact ⟨[], by simp [run_pool_aux, stopIndex, matchedOf]⟩
  | cons r rs ih =>
      intro count nmatched
      by_cases hstop : stopAt count
      · refine ⟨[], ?_⟩
        simp [run_pool_aux, hstop, stopIndex, matchedOf]
      · have hsi : stopIndex stopAt count (r :: rs).length
            = stopIndex stopAt (count + 1) rs.length + 1 := by
          simp [stopIndex, hstop]
        rcases r with e | a
        · obtain ⟨mid, heq, hnd, hfm⟩ := ih (count + 1) nmatched
          refine ⟨(if (count + 1) % 5 = 0 ∨ (count + 1) = total
              then [PoolEvent.prog ((count + 1) * 100 / total)] else []) ++ mid, ?_, ?_, ?_⟩
          · simp only [run_pool_aux, hstop, if_false, hsi, heq]
            simp [matchedOf_cons_error, List.take_succ_cons, matchedOf]
          · intro ev hev
            rcases List.mem_append.mp hev with h | h
            · split at h <;> simp_all [isDoneEvent]
            · exact hnd ev h
          · rw [List.filterMap_append]
            rw [hsi, List.take_succ_cons]
            have hprogs : ((if (count + 1) % 5 = 0 ∨ (count + 1) = total
                then [PoolEvent.prog ((count + 1) * 100 / total)] else [])).filterMap toMatched
                  = ([] : List α) := by
              split <;> simp [toMatched]
            rw [hprogs]
            simpa [matchedOf] using hfm
        · by_cases hfound : found a
          · obtain ⟨mid, heq, hnd, hfm⟩ := ih (count + 1) (nmatched + 1)
            refine ⟨PoolEvent.matched a :: ((if (count + 1) % 5 = 0 ∨ (count + 1) = total
                then [PoolEvent.prog ((count + 1) * 100 / total)] else []) ++ mid), ?_, ?_, ?_⟩
            · simp only [run_pool_aux, hstop, if_false, hsi, heq, hfound, if_true]
              simp only [List.take_succ_cons, matchedOf, List.filterMap_cons]
              simp [hfound]
              omega
            · intro ev hev
              rcases List.mem_cons.mp hev with h | h
              · subst h; rfl
              · rcases List.mem_append.mp h with h2 | h2
                · split at h2 <;> simp_all [isDoneEvent]
                · exact hnd ev h2
            · rw [List.filterMap_cons]
              have hprogs : ((if (count + 1) % 5 = 0 ∨ (count + 1) = total
                  then [PoolEvent.prog ((count + 1) * 100 / total)] else [])).filterMap toMatched
                    = ([] : List α) := by
                split <;> simp [toMatched]
              rw [hsi, List.take_succ_cons]
              simp only [toMatched, List.filterMap_append, hprogs]
              simp [matchedOf, hfound]
              simpa [matchedOf] using hfm
          · obtain ⟨mid, heq, hnd, hfm⟩ := ih (count + 1) nmatched
            refine ⟨(if (count + 1) % 5 = 0 ∨ (count + 1) = total
                then [PoolEvent.prog ((count + 1) * 100 / total)] else []) ++ mid, ?_, ?_, ?_⟩
            · simp only [run_pool_aux, hstop, if_false, hsi, heq, hfound]
              simp only [List.take_succ_cons, matchedOf, List.filterMap_cons]
              simp [hfound]
              exact heq
            · intro ev hev
              rcases List.mem_append.mp hev with h | h
              · split at h <;> simp_all [isDoneEvent]
              · exact hnd ev h
            · rw [List.filterMap_append]
              have hprogs : ((if (count + 1) % 5 = 0 ∨ (count + 1) = total
                  then [PoolEvent.prog ((count + 1) * 100 / total)] else [])).filterMap toMatched
                    = ([] : List α) := by
                split <;> simp [toMatched]
              rw [hprogs, hsi, List.take_succ_cons]
              simp only [List.nil_append]
              simpa [matchedOf, hfound] using hfm

/-- C7: in every pool run, once the cancellation flag is observed the loop
breaks, so the match callbacks that fire are exactly those of the prefix
of completions processed before the flag was seen; the done callback fires
exactly once, as the last event, carrying the match count accumulated up
to that point. -/
theorem C7_cancellation {α : Type} (found : α → Bool) (stopAt : Nat → Bool)
    (results : List (Except Unit α)) :
    ((run_pool found stopAt results).countP isDoneEvent = 1) ∧
    (run_pool found stopAt results).getLast? =
      some (.done (matchedOf found
        (results.take (stopIndex stopAt 0 results.length))).length) ∧
    (run_pool found stopAt results).filterMap toMatched =
      matchedOf found (results.take (stopIndex stopAt 0 results.length)) := by
  obtain ⟨mid, heq, hnd, hfm⟩ := run_pool_aux_spec found results.length stopAt results 0 0
  rw [run_pool] at *
  rw [heq]
  refine ⟨?_, ?_, ?_⟩
  · rw [List.countP_append]
    have h0 : mid.countP isDoneEvent = 0 := by
      rw [List.countP_eq_zero]
      intro e he
      simp [hnd e he]
    rw [h0]
    rfl
  · rw [List.getLast?_concat]
    simp
  · rw [List.filterMap_append, hfm]
    simp [toMatched]

/-- The progress events of an uncancelled pool run are exactly those at
counts divisible by five together with the final count, each carrying the
percentage `count * 100 / total`. -/
lemma run_pool_aux_prog {α : Type} (found : α → Bool) (total : Nat) :
    ∀ (rs : List (Except Unit α)) (count m : Nat),
      (run_pool_aux found total (fun _ => false) rs count m).filterMap toProg =
        ((List.range' (count + 1) rs.length).filter
          (fun c => decide (c % 5 = 0 ∨ c = total))).map (fun c => c * 100 / total) := by
  intro rs
  induction rs with
  | nil => intro count m; simp [run_pool_aux, toProg]
  | cons r rs ih =>
      intro count m
      rw [List.length_cons, List.range'_succ]
      simp only [run_pool_aux, Bool.false_eq_true, if_false, List.append_assoc]
      rw [List.filterMap_append, List.filterMap_append]
      have hstep : (match r with
          | .ok res => if found res then ([PoolEvent.matched res], m + 1) else ([], m)
          | .error _ => ([], m) : List (PoolEvent α) × Nat).1.filterMap toProg = [] := by
        rcases r with e | a
        · rfl
        · by_cases h : found a <;> simp [h, toProg]
      rw [hstep]
      by_cases hc : (count + 1) % 5 = 0 ∨ (count + 1) = total
      · rw [if_pos hc, List.filter_cons_of_pos (by simpa using hc)]
        simp only [List.map_cons, List.filterMap_cons]
        rw [ih (count + 1)]
        rfl
      · rw [if_neg hc, List.filter_cons_of_neg (by simpa using hc)]
        simp only [List.nil_append, List.filterMap_nil]
        rw [ih (count + 1)]

/-- C8: in every uncancelled pool run over a non-empty task list, the
progress callback fires exactly at every 5th completion and at the final
completion, with percentage `int(count / total * 100)`; the emitted
percentages are monotonically non-decreasing, and the final one is
exactly `100`. -/
theorem C8_progress {α : Type} (found : α → Bool) (results : List (Except Unit α))
    (hne : results ≠ []) :
    (run_pool found (fun _ => false) results).filterMap toProg =
      ((List.range' 1 results.length).filter
        (fun c => decide (c % 5 = 0 ∨ c = results.length))).map
          (fun c => c * 100 / results.length) ∧
    ((run_pool found (fun _ => false) results).filterMap toProg).Pairwise (· ≤ ·) ∧
    ((run_pool found (fun _ => false) results).filterMap toProg).getLast? = some 100 := by
  have htot : 0 < results.length := List.length_pos.mpr hne
  have hmain := run_pool_aux_prog found results.length results 0 0
  rw [run_pool]
  refine ⟨hmain, ?_, ?_⟩
  · rw [hmain, List.pairwise_map]
    refine List.Pairwise.imp ?_ ((List.pairwise_lt_range' 1 results.length).filter _)
    intro a b hab
    exact Nat.div_le_div_right (Nat.mul_le_mul_right 100 (Nat.le_of_lt hab))
  · rw [hmain]
    obtain ⟨n, hn⟩ : ∃ n, results.length = n + 1 :=
      ⟨results.length - 1, by omega⟩
    rw [hn, List.range'_concat]
    have h1n : 1 + 1 * n = n + 1 := by omega
    rw [h1n]
    rw [List.filter_append, List.map_append]
    have hkeep : List.filter (fun c => decide (c % 5 = 0 ∨ c = n + 1)) [n + 1] = [n + 1] := by
      simp
    rw [hkeep, List.map_cons, List.map_nil, List.getLast?_concat]
    congr 1
    rw [Nat.mul_comm]
    exact Nat.mul_div_cancel 100 (by omega)

/-- A one-job completed-result list used to witness the progress claim. -/
def c8res : List (Except Unit Bool) := [Except.ok true]

/-- C8 (witness): the progress theorem at a concrete single-job run. -/
theorem C8_witness :
    (c8res ≠ []) ∧
    ((run_pool (fun b => b) (fun _ => false) c8res).filterMap toProg =
      ((List.range' 1 c8res.length).filter
        (fun c => decide (c % 5 = 0 ∨ c = c8res.length))).map
          (fun c => c * 100 / c8res.length) ∧
    ((run_pool (fun b => b) (fun _ => false) c8res).filterMap toProg).Pairwise (· ≤ ·) ∧
    ((run_pool (fun b => b) (fun _ => false) c8res).filterMap toProg).getLast? = some 100) :=
  ⟨List.cons_ne_nil _ _, C8_progress (fun b => b) c8res (List.cons_ne_nil _ _)⟩

/-- Extension of a bare file name per `os.path.splitext` (no separators in
a bare name): the suffix from the last dot, unless every character before
that dot is itself a dot. -/
def lastDotIdx (l : List Char) : Option Nat :=
  l.enum.foldl (fun acc p => if p.2 = '.' then some p.1 else acc) none

/-- The `os.path.splitext(f)[1]` extension of a bare file name. -/
def pyExt (name : List Char) : List Char :=
  match lastDotIdx name with
  | none => []
  | some d => if (name.take d).any (fun c => c != '.') then name.drop d else []

/-- The flattened value set of `SUPPORTED_EXTS`. -/
def validExts : List (List Char) :=
  [".pdf".data, ".docx".data, ".doc".data, ".txt".data, ".py".data, ".c".data,
   ".cpp".data, ".h".data, ".java".data, ".md".data, ".json".data, ".xml".data,
   ".csv".data]

/-- One `os.walk` hit: the joined path `full` and the bare file name. -/
structure WalkEntry where
  full : List Char
  name : List Char

/-- Model of `SearchLogic.get_files`: `abspath` abstracts the file
system's `os.path.abspath`, `myself` is `os.path.abspath(__file__)`. -/
def get_files (abspath : List Char → List Char) (myself : List Char)
    (entries : List WalkEntry) : List (List Char) :=
  entries.filterMap (fun e =>
    if abspath e.full = myself then none
    else if pyLower (pyExt e.name) ∈ validExts then some e.full
    else none)

/-- The candidate list of `run_similarity_search`: every file except the
reference itself, compared by absolute path. -/
def simTasks (abspath : List Char → List Char) (files : List (List Char))
    (ref_file : List Char) : List (List Char) :=
  files.filter (fun f => decide (abspath f ≠ abspath ref_file))

/-- Model of `SearchLogic.run_similarity_search`, returning the emitted
callback events: `extract` abstracts `extract_text_from_file`.  If the
reference token set is empty the function returns before starting the
pool, so no callback at all fires. -/
def run_similarity_search (extract abspath : List Char → List Char)
    (stopAt : Nat → Bool) (files : List (List Char)) (ref_file : List Char) :
    List (PoolEvent (Bool × ℚ)) :=
  let ref_tokens := get_tokens (extract ref_file)
  if ref_tokens = ∅ then []
  else
    run_pool Prod.fst stopAt
      ((simTasks abspath files ref_file).map
        (fun t => Except.ok (worker_similarity_scan ref_tokens (extract t))))

/-- C9: the candidate list of `get_files` never contains a path whose
absolute path is the script's own absolute path, and every candidate comes
from a walk entry whose extension, lower-cased, is in the recognized
extension set; moreover every similarity task differs from the reference
file by absolute path. -/
theorem C9_candidate_invariants (abspath : List Char → List Char)
    (script : List Char) (entries : List WalkEntry)
    (files : List (List Char)) (ref_file : List Char) :
    (∀ p ∈ get_files abspath (abspath script) entries, abspath p ≠ abspath script) ∧
    (∀ p ∈ get_files abspath (abspath script) entries,
      ∃ e ∈ entries, p = e.full ∧ pyLower (pyExt e.name) ∈ validExts) ∧
    (∀ t ∈ simTasks abspath files ref_file, abspath t ≠ abspath ref_file) := by
  refine ⟨?_, ?_, ?_⟩
  · intro p hp
    obtain ⟨e, he, hfe⟩ := List.mem_filterMap.mp hp
    by_cases hself : abspath e.full = abspath script
    · rw [if_pos hself] at hfe
      exact absurd hfe (by simp)
    · rw [if_neg hself] at hfe
      by_cases hext : pyLower (pyExt e.name) ∈ validExts
      · rw [if_pos hext] at hfe
        injection hfe with h
        rw [← h]
        exact hself
      · rw [if_neg hext] at hfe
        exact absurd hfe (by simp)
  · intro p hp
    obtain ⟨e, he, hfe⟩ := List.mem_filterMap.mp hp
    by_cases hself : abspath e.full = abspath script
    · rw [if_pos hself] at hfe
      exact absurd hfe (by simp)
    · rw [if_neg hself] at hfe
      by_cases hext : pyLower (pyExt e.name) ∈ validExts
      · rw [if_pos hext] at hfe
        injection hfe with h
        exact ⟨e, he, h.symm, hext⟩
      · rw [if_neg hext] at hfe
        exact absurd hfe (by simp)
  · intro t ht
    have := List.of_mem_filter ht
    simpa using this

/-- C10: a reference file with an empty token set makes
`run_similarity_search` return before submitting any job, so no callback
(in particular no `on_done`) ever fires; with a non-empty token set the
pool always ends with a done event. -/
theorem C10_empty_ref_tokens (extract abspath : List Char → List Char)
    (stopAt : Nat → Bool) (files : List (List Char)) (ref_file : List Char) :
    (get_tokens (extract ref_file) = ∅ →
      run_similarity_search extract abspath stopAt files ref_file = []) ∧
    (get_tokens (extract ref_file) ≠ ∅ →
      ∃ m, (run_similarity_search extract abspath stopAt files ref_file).getLast? =
        some (.done m)) := by
  constructor
  · intro h
    rw [run_similarity_search, if_pos h]
  · intro h
    rw [run_similarity_search, if_neg h]
    obtain ⟨mid, heq, hnd, hfm⟩ := run_pool_aux_spec (α := Bool × ℚ) Prod.fst _ stopAt _ 0 0
    rw [run_pool, heq, List.getLast?_concat]
    exact ⟨_, rfl⟩

/-- C10 (witness): a reference whose extraction is empty yields no events
at all; one with tokens yields a run ending in a done event. -/
theorem C10_witness :
    (get_tokens ((fun _ => ([] : List Char)) "r".data) = ∅ ∧
      get_tokens ((fun _ => "alpha beta".data) "r".data) ≠ ∅) ∧
    (run_similarity_search (fun _ => []) id (fun _ => false) ["a".data] "r".data = [] ∧
      ∃ m, (run_similarity_search (fun _ => "alpha beta".data) id (fun _ => false)
        ["a".data] "r".data).getLast? = some (.done m)) :=
  ⟨⟨by decide, by decide⟩,
    (C10_empty_ref_tokens (fun _ => []) id (fun _ => false) ["a".data] "r".data).1 (by decide),
    (C10_empty_ref_tokens (fun _ => "alpha beta".data) id (fun _ => false)
      ["a".data] "r".data).2 (by decide)⟩

set_option maxRecDepth 10000

/-!
Model of `difflib.SequenceMatcher(None, a, b)` as used by
`DeepInspector.compare_structure`.  With `isjunk = None` the junk set
`bjunk` is empty, so the two junk-extension loops of
`find_longest_match` never fire and are omitted; the autojunk heuristic
only purges popular characters from the index `b2j`, which phase one of
`find_longest_match` consults.  Phase one is modelled by its documented
contract: among all maximal matching blocks (runs of equal characters
whose `b`-side characters are indexed), return the longest, tie-broken
by earliest start in `a`, then earliest start in `b`; the two non-junk
extension loops then extend that block over adjacent equal characters.
`ratio()` is `2 * M / (len(a) + len(b))` where `M` sums the recursive
matching blocks, and `1.0` for two empty sequences.
-/

/-- The autojunk popularity test of `SequenceMatcher.__chain_b` for the
second sequence: active when `len(b) >= 200`, it junks characters with
more than `len(b) // 100 + 1` occurrences. -/
def popularJunk (b : List Char) : Char → Bool :=
  if 200 ≤ b.length then (fun c => b.length / 100 + 1 < b.count c) else (fun _ => false)

/-- Length of the matching run at a given pair of positions: characters
must be equal and the `b`-side character must be indexed (not popular). -/
def runLen (pop : Char → Bool) : List Char → List Char → Nat
  | x :: xs, y :: ys => if x = y ∧ pop y = false then runLen pop xs ys + 1 else 0
  | _, _ => 0

/-- All candidate run starts, in the scan order of the DP loop of
`find_longest_match` (outer index ascending, inner ascending). -/
def candPairs (la lb : Nat) : List (Nat × Nat) :=
  (List.range la).flatMap (fun i => (List.range lb).map (fun j => (i, j)))

/-- Phase one of `find_longest_match`: the longest matching block, ties
resolved toward the earliest start in `a` then in `b` (the strict
`k > bestsize` update of the DP loop). -/
def bestOf (pop : Char → Bool) (a b : List Char) : Nat × Nat × Nat :=
  (candPairs a.length b.length).foldl
    (fun best ij =>
      let k := runLen pop (a.drop ij.1) (b.drop ij.2)
      if best.2.2 < k then (ij.1, ij.2, k) else best)
    (0, 0, 0)

/-- The backward non-junk extension loop of `find_longest_match` (with
`bjunk` empty the junk test is vacuous). -/
def extendBack (a b : List Char) : Nat → Nat → Nat → Nat × Nat × Nat
  | 0, j, k => (0, j, k)
  | i + 1, 0, k => (i + 1, 0, k)
  | i + 1, j + 1, k =>
      match a.get? i, b.get? j with
      | some ca, some cb =>
          if ca = cb then extendBack a b i j (k + 1) else (i + 1, j + 1, k)
      | _, _ => (i + 1, j + 1, k)

/-- The forward non-junk extension loop; `fuel` bounds the iteration
count (any value at least `a.length` is exact). -/
def extendFwdAux (a b : List Char) (i j : Nat) : Nat → Nat → Nat
  | k, 0 => k
  | k, fuel + 1 =>
      match a.get? (i + k), b.get? (j + k) with
      | some ca, some cb =>
          if ca = cb then extendFwdAux a b i j (k + 1) fuel else k
      | _, _ => k

/-- `find_longest_match` on the full ranges of both sequences. -/
def findLongestMatch (pop : Char → Bool) (a b : List Char) : Nat × Nat × Nat :=
  let b0 := bestOf pop a b
  let b1 := extendBack a b b0.1 b0.2.1 b0.2.2
  let k2 := extendFwdAux a b b1.1 b1.2.1 b1.2.2 a.length
  (b1.1, b1.2.1, k2)

/-- Total size of the recursive matching blocks of
`get_matching_blocks`: the queue recursion of difflib reordered as a
structural recursion (left part, block, right part), which leaves the
total block size unchanged; `fuel ≥ a.length` makes it exact. -/
def matchingSizeF (pop : Char → Bool) : Nat → List Char → List Char → Nat
  | 0, _, _ => 0
  | fuel + 1, a, b =>
      let m := findLongestMatch pop a b
      if m.2.2 = 0 then 0
      else
        m.2.2 + matchingSizeF pop fuel (a.take m.1) (b.take m.2.1)
          + matchingSizeF pop fuel (a.drop (m.1 + m.2.2)) (b.drop (m.2.1 + m.2.2))

/-- The number of matched elements `M` used by `ratio()`. -/
def matchingSize (a b : List Char) : Nat := matchingSizeF (popularJunk b) a.length a b

/-- `SequenceMatcher(None, a, b).ratio()` on exact rationals:
`2M / (len(a)+len(b))`, and `1.0` when both sequences are empty. -/
def matcherScore (a b : List Char) : ℚ :=
  if a.length + b.length = 0 then 1
  else 2 * (matchingSize a b : ℚ) / ((a.length : ℚ) + (b.length : ℚ))

/-- `ratio() * 100` as used by `compare_structure`. -/
def ratio100 (a b : List Char) : ℚ := matcherScore a b * 100

lemma runLen_le_left (pop : Char → Bool) :
    ∀ xs ys : List Char, runLen pop xs ys ≤ xs.length := by
  intro xs
  induction xs with
  | nil => intro ys; cases ys <;> simp [runLen]
  | cons x xs ih =>
      intro ys
      cases ys with
      | nil => simp [runLen]
      | cons y ys =>
          rw [runLen]
          split
          · simpa using ih ys
          · simp

lemma runLen_le_right (pop : Char → Bool) :
    ∀ xs ys : List Char, runLen pop xs ys ≤ ys.length := by
  intro xs
  induction xs with
  | nil => intro ys; cases ys <;> simp [runLen]
  | cons x xs ih =>
      intro ys
      cases ys with
      | nil => simp [runLen]
      | cons y ys =>
          rw [runLen]
          split
          · simpa using ih ys
          · simp

lemma runLen_spec (pop : Char → Bool) :
    ∀ (xs ys : List Char) (t : Nat), t < runLen pop xs ys →
      xs.get? t = ys.get? t ∧ ∃ c, ys.get? t = some c ∧ pop c = false := by
  intro xs
  induction xs with
  | nil => intro ys t h; simp [runLen] at h
  | cons x xs ih =>
      intro ys t h
      cases ys with
      | nil => simp [runLen] at h
      | cons y ys =>
          rw [runLen] at h
          split at h
          · rename_i hc
            cases t with
            | zero => exact ⟨by simp [hc.1], y, by simp, hc.2⟩
            | succ t => simpa using ih ys t (by omega)
          · omega

lemma le_runLen_diag (pop : Char → Bool) :
    ∀ (k : Nat) (l : List Char),
      (∀ t < k, ∃ c, l.get? t = some c ∧ pop c = false) → k ≤ runLen pop l l := by
  intro k
  induction k with
  | zero => intro l _; exact Nat.zero_le _
  | succ k ih =>
      intro l h
      obtain ⟨c, hc, hpc⟩ := h 0 (by omega)
      cases l with
      | nil => simp at hc
      | cons x l =>
          simp at hc
          subst hc
          rw [runLen, if_pos ⟨rfl, hpc⟩]
          have := ih l (fun t ht => by simpa using h (t + 1) (by omega))
          omega

/-- Characterization of the strict-improvement foldl that difflib's
longest-match scan performs: the result is either the initial triple (no
candidate beats it) or the first candidate attaining the maximum value. -/
lemma foldl_best_spec (f : Nat × Nat → Nat) :
    ∀ (cands : List (Nat × Nat)) (init : Nat × Nat × Nat),
      (cands.foldl
          (fun best ij => if best.2.2 < f ij then (ij.1, ij.2, f ij) else best) init = init ∧
        ∀ c ∈ cands, f c ≤ init.2.2) ∨
      (∃ l₁ c l₂, cands = l₁ ++ c :: l₂ ∧
        cands.foldl
          (fun best ij => if best.2.2 < f ij then (ij.1, ij.2, f ij) else best) init
            = (c.1, c.2, f c) ∧
        init.2.2 < f c ∧ (∀ c' ∈ l₁, f c' < f c) ∧ (∀ c' ∈ l₂, f c' ≤ f c)) := by
  intro cands
  induction cands with
  | nil => intro init; exact Or.inl ⟨rfl, by simp⟩
  | cons c cands ih =>
      intro init
      by_cases hc : init.2.2 < f c
      · rw [List.foldl_cons, if_pos hc]
        rcases ih (c.1, c.2, f c) with ⟨heq, hall⟩ | ⟨l₁, d, l₂, hsplit, heq, hlt, h₁, h₂⟩
        · exact Or.inr ⟨[], c, cands, by simp, by simpa using heq, hc, by simp, by simpa using hall⟩
        · refine Or.inr ⟨c :: l₁, d, l₂, by simp [hsplit], heq, ?_, ?_, h₂⟩
          · exact lt_trans hc (by simpa using hlt)
          · intro e he
            rcases List.mem_cons.mp he with h | h
            · subst h; simpa using hlt
            · exact h₁ e h
      · rw [List.foldl_cons, if_neg hc]
        rcases ih init with ⟨heq, hall⟩ | ⟨l₁, d, l₂, hsplit, heq, hlt, h₁, h₂⟩
        · refine Or.inl ⟨heq, ?_⟩
          intro e he
          rcases List.mem_cons.mp he with h | h
          · subst h; omega
          · exact hall e h
        · refine Or.inr ⟨c :: l₁, d, l₂, by simp [hsplit], heq, hlt, ?_, h₂⟩
          intro e he
          rcases List.mem_cons.mp he with h | h
          · subst h; omega
          · exact h₁ e h

lemma candPairs_mem (la lb : Nat) (i j : Nat) :
    (i, j) ∈ candPairs la lb ↔ i < la ∧ j < lb := by
  simp [candPairs]

/-- The candidate scan order is lexicographic. -/
lemma candPairs_pairwise (la lb : Nat) :
    (candPairs la lb).Pairwise
      (fun p q => p.1 < q.1 ∨ (p.1 = q.1 ∧ p.2 < q.2)) := by
  rw [candPairs, List.pairwise_flatMap]
  constructor
  · intro i _
    rw [List.pairwise_map]
    exact (List.pairwise_lt_range lb).imp (fun h => Or.inr ⟨rfl, h⟩)
  · refine (List.pairwise_lt_range la).imp ?_
    intro a b hab
    intro x hx y hy
    simp at hx hy
    obtain ⟨jx, _, hjx⟩ := hx
    obtain ⟨jy, _, hjy⟩ := hy
    rw [← hjx, ← hjy]
    exact Or.inl hab

/-- What `bestOf` returns: either no non-trivial run exists, or the
triple is the lexicographically first run start attaining the maximal
run length, mirroring difflib's documented tie-breaking. -/
lemma bestOf_cases (pop : Char → Bool) (a b : List Char) :
    (bestOf pop a b = (0, 0, 0) ∧
      ∀ i j, i < a.length → j < b.length → runLen pop (a.drop i) (b.drop j) = 0) ∨
    (∃ i j, bestOf pop a b = (i, j, runLen pop (a.drop i) (b.drop j)) ∧
      i < a.length ∧ j < b.length ∧ 0 < runLen pop (a.drop i) (b.drop j) ∧
      (∀ i' j', i' < a.length → j' < b.length →
        runLen pop (a.drop i') (b.drop j') ≤ runLen pop (a.drop i) (b.drop j)) ∧
      (∀ i' j', i' < a.length → j' < b.length →
        runLen pop (a.drop i') (b.drop j') = runLen pop (a.drop i) (b.drop j) →
        (i, j) = (i', j') ∨ i < i' ∨ (i = i' ∧ j < j'))) := by
  have hspec := foldl_best_spec
    (fun ij => runLen pop (a.drop ij.1) (b.drop ij.2)) (candPairs a.length b.length) (0, 0, 0)
  rcases hspec with ⟨heq, hall⟩ | ⟨l₁, c, l₂, hsplit, heq, hpos, h₁, h₂⟩
  · left
    refine ⟨heq, ?_⟩
    intro i j hi hj
    have := hall (i, j) ((candPairs_mem _ _ _ _).mpr ⟨hi, hj⟩)
    simp at this
    omega
  · right
    have hcmem : c ∈ candPairs a.length b.length := by
      rw [hsplit]; exact List.mem_append_right _ (List.mem_cons_self _ _)
    obtain ⟨hca, hcb⟩ := (candPairs_mem _ _ _ _).mp (by simpa using hcmem)
    refine ⟨c.1, c.2, by simpa using heq, hca, hcb, by simpa using hpos, ?_, ?_⟩
    · intro i' j' hi' hj'
      have hmem : (i', j') ∈ candPairs a.length b.length := (candPairs_mem _ _ _ _).mpr ⟨hi', hj'⟩
      rw [hsplit] at hmem
      rcases List.mem_append.mp hmem with h | h
      · have := h₁ _ h
        simp at this
        exact le_of_lt this
      · rcases List.mem_cons.mp h with h | h
        · rw [← h]
        · have := h₂ _ h
          simpa using this
    · intro i' j' hi' hj' hfeq
      have hmem : (i', j') ∈ candPairs a.length b.length := (candPairs_mem _ _ _ _).mpr ⟨hi', hj'⟩
      rw [hsplit] at hmem
      rcases List.mem_append.mp hmem with h | h
      · have := h₁ _ h
        simp at this
        omega
      · rcases List.mem_cons.mp h with h | h
        · left; rw [h]
        · right
          have hpw := candPairs_pairwise a.length b.length
          rw [hsplit] at hpw
          have hc2 := (List.pairwise_append.mp hpw).2.1
          have := (List.pairwise_cons.mp hc2).1 _ h
          rcases this with h' | h'
          · exact Or.inl h'
          · exact Or.inr ⟨h'.1, h'.2⟩

/-- On a pair of identical sequences the first maximal run start is on
the diagonal. -/
lemma bestOf_diag (pop : Char → Bool) (s : List Char) :
    0 < (bestOf pop s s).2.2 → (bestOf pop s s).1 = (bestOf pop s s).2.1 := by
  intro hpos
  rcases bestOf_cases pop s s with ⟨heq, _⟩ | ⟨i, j, heq, hi, hj, hk, hmax, hfirst⟩
  · rw [heq] at hpos; simp at hpos
  · rw [heq]
    simp only
    set k := runLen pop (s.drop i) (s.drop j) with hk_def
    have hjj_ge : k ≤ runLen pop (s.drop j) (s.drop j) := by
      apply le_runLen_diag
      intro t ht
      exact (runLen_spec pop (s.drop i) (s.drop j) t ht).2
    have hii_ge : k ≤ runLen pop (s.drop i) (s.drop i) := by
      apply le_runLen_diag
      intro t ht
      obtain ⟨hget, c, hc, hpc⟩ := runLen_spec pop (s.drop i) (s.drop j) t ht
      exact ⟨c, by rw [hget]; exact hc, hpc⟩
    have hjj : runLen pop (s.drop j) (s.drop j) = k :=
      le_antisymm (hmax j j hj hj) hjj_ge
    have hii : runLen pop (s.drop i) (s.drop i) = k :=
      le_antisymm (hmax i i hi hi) hii_ge
    rcases Nat.lt_trichotomy i j with h | h | h
    · rcases hfirst i i hi hi hii with h' | h' | h'
      · have h2 : j = i := congrArg Prod.snd h'
        omega
      · omega
      · omega
    · exact h
    · rcases hfirst j j hj hj hjj with h' | h' | h'
      · exact congrArg Prod.fst h'
      · omega
      · omega

lemma extendBack_diag (s : List Char) :
    ∀ i k, i ≤ s.length → extendBack s s i i k = (0, 0, i + k) := by
  intro i
  induction i with
  | zero => intro k _; simp [extendBack]
  | succ i ih =>
      intro k hi
      rw [extendBack]
      have hget : s.get? i = some (s.get ⟨i, by omega⟩) := by
        simp [List.get?_eq_getElem?, List.getElem?_eq_some_iff]
        omega
      simp only [hget, if_pos rfl]
      have harith : i + (k + 1) = i + 1 + k := by omega
      rw [ih (k + 1) (by omega), harith]
      simp

lemma extendFwdAux_diag (s : List Char) :
    ∀ fuel k, k ≤ s.length → s.length ≤ k + fuel →
      extendFwdAux s s 0 0 k fuel = s.length := by
  intro fuel
  induction fuel with
  | zero =>
      intro k h1 h2
      show k = s.length
      omega
  | succ fuel ih =>
      intro k h1 h2
      by_cases hk : k < s.length
      · have hget : s.get? (0 + k) = some (s.get ⟨k, hk⟩) := by
          simp [List.get?_eq_getElem?, List.getElem?_eq_some_iff]
          omega
        have hstep : extendFwdAux s s 0 0 k (fuel + 1) = extendFwdAux s s 0 0 (k + 1) fuel := by
          rw [extendFwdAux, hget]
          simp
        rw [hstep]
        exact ih (k + 1) (by omega) (by omega)
      · have hget : s.get? (0 + k) = none := by
          rw [List.get?_eq_getElem?]
          simp
          omega
        have hstep : extendFwdAux s s 0 0 k (fuel + 1) = k := by
          rw [extendFwdAux, hget]
        rw [hstep]
        omega

lemma flm_diag (pop : Char → Bool) (s : List Char) :
    findLongestMatch pop s s = (0, 0, s.length) := by
  rw [findLongestMatch]
  rcases Nat.eq_zero_or_pos (bestOf pop s s).2.2 with hz | hpos
  · have h0 : bestOf pop s s = (0, 0, 0) := by
      rcases bestOf_cases pop s s with ⟨heq, _⟩ | ⟨i, j, heq, _, _, hk, _, _⟩
      · exact heq
      · rw [heq] at hz; simp at hz; omega
    rw [h0]
    simp only
    rw [show extendBack s s 0 0 0 = (0, 0, 0) from by simp [extendBack]]
    simp only
    rw [extendFwdAux_diag s s.length 0 (by omega) (by omega)]
  · have hdiag := bestOf_diag pop s hpos
    rcases bestOf_cases pop s s with ⟨heq, _⟩ | ⟨i, j, heq, hi, hj, hk, _, _⟩
    · rw [heq] at hpos; simp at hpos
    · rw [heq]
      have hij : i = j := by
        rw [heq] at hdiag; simpa using hdiag
      subst hij
      simp only
      have hik : i + runLen pop (s.drop i) (s.drop i) ≤ s.length := by
        have := runLen_le_left pop (s.drop i) (s.drop i)
        rw [List.length_drop] at this
        omega
      rw [extendBack_diag s i _ (by omega)]
      simp only
      rw [extendFwdAux_diag s s.length _ (by omega) (by omega)]

lemma matchingSizeF_diag (pop : Char → Bool) :
    ∀ (fuel : Nat) (s : List Char), s.length ≤ fuel →
      matchingSizeF pop fuel s s = s.length := by
  intro fuel
  induction fuel with
  | zero =>
      intro s hs
      rw [matchingSizeF]
      omega
  | succ fuel ih =>
      intro s hs
      rw [matchingSizeF, flm_diag]
      simp only
      by_cases hlen : s.length = 0
      · rw [if_pos hlen]
        omega
      · rw [if_neg hlen]
        rw [List.take_zero, Nat.zero_add, List.drop_length]
        rw [ih [] (by simp)]
        simp only [List.length_nil]
        omega

lemma matchingSize_self (s : List Char) : matchingSize s s = s.length := by
  rw [matchingSize]
  exact matchingSizeF_diag _ _ _ (le_refl _)

/-- `SequenceMatcher(None, s, s).ratio()` is `1.0` for every string: the
popularity pruning of autojunk only ever removes whole characters from the
index, and identical sequences always extend to a full diagonal match. -/
lemma matcherScore_self (s : List Char) : matcherScore s s = 1 := by
  rw [matcherScore, matchingSize_self]
  by_cases h : s.length + s.length = 0
  · rw [if_pos h]
  · rw [if_neg h]
    have h2 : (s.length : ℚ) + s.length = 2 * s.length := by ring
    rw [h2]
    have hne : (2 : ℚ) * s.length ≠ 0 := by
      have hs : s.length ≠ 0 := by omega
      exact mul_ne_zero two_ne_zero (Nat.cast_ne_zero.mpr hs)
    exact div_self hne

/-- A valid matching block: `k` characters agree starting at `i` in `a`
and `j` in `b`, within bounds. -/
def IsBlock (a b : List Char) (i j k : Nat) : Prop :=
  i + k ≤ a.length ∧ j + k ≤ b.length ∧ ∀ t < k, a.get? (i + t) = b.get? (j + t)

lemma isBlock_zero (a b : List Char) (i j : Nat) (hi : i ≤ a.length) (hj : j ≤ b.length) :
    IsBlock a b i j 0 :=
  ⟨by omega, by omega, fun t ht => by omega⟩

lemma bestOf_isBlock (pop : Char → Bool) (a b : List Char) :
    IsBlock a b (bestOf pop a b).1 (bestOf pop a b).2.1 (bestOf pop a b).2.2 := by
  rcases bestOf_cases pop a b with ⟨heq, _⟩ | ⟨i, j, heq, hi, hj, hk, _, _⟩
  · rw [heq]
    exact isBlock_zero a b 0 0 (by omega) (by omega)
  · rw [heq]
    show IsBlock a b i j (runLen pop (a.drop i) (b.drop j))
    have hkl := runLen_le_left pop (a.drop i) (b.drop j)
    have hkr := runLen_le_right pop (a.drop i) (b.drop j)
    rw [List.length_drop] at hkl hkr
    refine ⟨by omega, by omega, ?_⟩
    intro t ht
    have hspec := runLen_spec pop (a.drop i) (b.drop j) t ht
    have h1 : (a.drop i).get? t = a.get? (i + t) := by
      rw [List.get?_eq_getElem?, List.get?_eq_getElem?, List.getElem?_drop]
    have h2 : (b.drop j).get? t = b.get? (j + t) := by
      rw [List.get?_eq_getElem?, List.get?_eq_getElem?, List.getElem?_drop]
    rw [← h1, ← h2]
    exact hspec.1

lemma extendBack_isBlock (a b : List Char) :
    ∀ i j k, IsBlock a b i j k →
      IsBlock a b (extendBack a b i j k).1 (extendBack a b i j k).2.1
        (extendBack a b i j k).2.2 := by
  intro i
  induction i with
  | zero => intro j k h; simpa [extendBack] using h
  | succ i ih =>
      intro j k h
      cases j with
      | zero => simpa [extendBack] using h
      | succ j =>
          rw [extendBack]
          cases hga : a.get? i with
          | none => simpa [hga] using h
          | some ca =>
              cases hgb : b.get? j with
              | none => simpa [hga, hgb] using h
              | some cb =>
                  simp only [hga, hgb]
                  by_cases hcc : ca = cb
                  · rw [if_pos hcc]
                    apply ih
                    obtain ⟨hb1, hb2, hb3⟩ := h
                    refine ⟨by omega, by omega, ?_⟩
                    intro t ht
                    cases t with
                    | zero =>
                        simp only [Nat.add_zero, hga, hgb]
                        exact congrArg some hcc
                    | succ t =>
                        have := hb3 t (by omega)
                        have e1 : i + 1 + t = i + (t + 1) := by omega
                        have e2 : j + 1 + t = j + (t + 1) := by omega
                        rw [e1, e2] at this
                        simpa [Nat.add_comm] using this
                  · rw [if_neg hcc]
                    exact h

lemma extendFwdAux_isBlock (a b : List Char) (i j : Nat) :
    ∀ fuel k, IsBlock a b i j k → IsBlock a b i j (extendFwdAux a b i j k fuel) := by
  intro fuel
  induction fuel with
  | zero => intro k h; exact h
  | succ fuel ih =>
      intro k h
      rw [extendFwdAux]
      cases hga : a.get? (i + k) with
      | none => exact h
      | some ca =>
          cases hgb : b.get? (j + k) with
          | none => exact h
          | some cb =>
              simp only
              by_cases hcc : ca = cb
              · rw [if_pos hcc]
                apply ih
                obtain ⟨hb1, hb2, hb3⟩ := h
                have hia : i + k < a.length := by
                  by_contra hcon
                  rw [List.get?_eq_getElem?] at hga
                  rw [List.getElem?_eq_none (by omega)] at hga
                  exact Option.noConfusion hga
                have hjb : j + k < b.length := by
                  by_contra hcon
                  rw [List.get?_eq_getElem?] at hgb
                  rw [List.getElem?_eq_none (by omega)] at hgb
                  exact Option.noConfusion hgb
                refine ⟨by omega, by omega, ?_⟩
                intro t ht
                by_cases htk : t < k
                · exact hb3 t htk
                · have hteq : t = k := by omega
                  subst hteq
                  rw [hga, hgb, hcc]
              · rw [if_neg hcc]
                exact h

lemma flm_isBlock (pop : Char → Bool) (a b : List Char) :
    IsBlock a b (findLongestMatch pop a b).1 (findLongestMatch pop a b).2.1
      (findLongestMatch pop a b).2.2 := by
  rw [findLongestMatch]
  simp only
  exact extendFwdAux_isBlock a b _ _ a.length _
    (extendBack_isBlock a b _ _ _ (bestOf_isBlock pop a b))

lemma matchingSizeF_le (pop : Char → Bool) :
    ∀ (fuel : Nat) (a b : List Char),
      matchingSizeF pop fuel a b ≤ a.length ∧ matchingSizeF pop fuel a b ≤ b.length := by
  intro fuel
  induction fuel with
  | zero => intro a b; rw [matchingSizeF]; omega
  | succ fuel ih =>
      intro a b
      rw [matchingSizeF]
      have hblk := flm_isBlock pop a b
      obtain ⟨hb1, hb2, _⟩ := hblk
      by_cases hz : (findLongestMatch pop a b).2.2 = 0
      · rw [if_pos hz]; omega
      · rw [if_neg hz]
        obtain ⟨ih1a, ih1b⟩ := ih (a.take (findLongestMatch pop a b).1)
          (b.take (findLongestMatch pop a b).2.1)
        obtain ⟨ih2a, ih2b⟩ := ih
          (a.drop ((findLongestMatch pop a b).1 + (findLongestMatch pop a b).2.2))
          (b.drop ((findLongestMatch pop a b).2.1 + (findLongestMatch pop a b).2.2))
        have t1 : (a.take (findLongestMatch pop a b).1).length ≤ (findLongestMatch pop a b).1 :=
          List.length_take_le _ _
        have t2 : (b.take (findLongestMatch pop a b).2.1).length ≤ (findLongestMatch pop a b).2.1 :=
          List.length_take_le _ _
        rw [List.length_drop] at ih2a ih2b
        omega

lemma matchingSizeF_full (pop : Char → Bool) :
    ∀ (fuel : Nat) (a b : List Char),
      matchingSizeF pop fuel a b = a.length → matchingSizeF pop fuel a b = b.length →
      a = b := by
  intro fuel
  induction fuel with
  | zero =>
      intro a b ha hb
      rw [matchingSizeF] at ha hb
      rw [List.length_eq_zero.mp ha.symm, List.length_eq_zero.mp hb.symm]
  | succ fuel ih =>
      intro a b ha hb
      rw [matchingSizeF] at ha hb
      obtain ⟨hb1, hb2, hb3⟩ := flm_isBlock pop a b
      by_cases hz : (findLongestMatch pop a b).2.2 = 0
      · rw [if_pos hz] at ha hb
        rw [List.length_eq_zero.mp ha.symm, List.length_eq_zero.mp hb.symm]
      · rw [if_neg hz] at ha hb
        set i := (findLongestMatch pop a b).1 with hi_def
        set j := (findLongestMatch pop a b).2.1 with hj_def
        set k := (findLongestMatch pop a b).2.2 with hk_def
        set M1 := matchingSizeF pop fuel (a.take i) (b.take j) with hM1_def
        set M2 := matchingSizeF pop fuel (a.drop (i + k)) (b.drop (j + k)) with hM2_def
        have hle1 := matchingSizeF_le pop fuel (a.take i) (b.take j)
        have hle2 := matchingSizeF_le pop fuel (a.drop (i + k)) (b.drop (j + k))
        have t1 : (a.take i).length ≤ i := List.length_take_le _ _
        have t2 : (b.take j).length ≤ j := List.length_take_le _ _
        rw [List.length_drop, List.length_drop] at hle2
        have hij : i = j := by omega
        have htake : a.take i = b.take j := by
          apply ih
          · omega
          · omega
        have hdrop : a.drop (i + k) = b.drop (j + k) := by
          apply ih
          · rw [List.length_drop]; omega
          · rw [List.length_drop]; omega
        apply List.ext_get?
        intro n
        by_cases hn1 : n < i
        · have h1 : (a.take i).get? n = a.get? n := by
            rw [List.get?_eq_getElem?, List.get?_eq_getElem?]
            exact List.getElem?_take_of_lt hn1
          have h2 : (b.take j).get? n = b.get? n := by
            rw [List.get?_eq_getElem?, List.get?_eq_getElem?]
            exact List.getElem?_take_of_lt (by omega)
          rw [← h1, ← h2, htake]
        · by_cases hn2 : n < i + k
          · have := hb3 (n - i) (by omega)
            have e1 : i + (n - i) = n := by omega
            have e2 : j + (n - i) = n := by omega
            rw [e1, e2] at this
            exact this
          · have h1 : (a.drop (i + k)).get? (n - (i + k)) = a.get? n := by
              rw [List.get?_eq_getElem?, List.get?_eq_getElem?, List.getElem?_drop]
              congr 1
              omega
            have h2 : (b.drop (j + k)).get? (n - (i + k)) = b.get? n := by
              rw [List.get?_eq_getElem?, List.get?_eq_getElem?, List.getElem?_drop]
              congr 1
              omega
            rw [← h1, ← h2, hdrop]

lemma matchingSize_le (a b : List Char) :
    matchingSize a b ≤ a.length ∧ matchingSize a b ≤ b.length :=
  matchingSizeF_le _ _ a b

/-- `ratio()` never exceeds `1.0`. -/
lemma matcherScore_le_one (a b : List Char) : matcherScore a b ≤ 1 := by
  rw [matcherScore]
  by_cases h : a.length + b.length = 0
  · rw [if_pos h]
  · rw [if_neg h]
    have hM := matchingSize_le a b
    have hpos : (0:ℚ) < (a.length : ℚ) + (b.length : ℚ) := by
      have hn : 0 < a.length + b.length := by omega
      exact_mod_cast hn
    rw [div_le_one hpos]
    have h2 : 2 * matchingSize a b ≤ a.length + b.length := by omega
    exact_mod_cast h2

/-- `ratio()` is nonnegative. -/
lemma matcherScore_nonneg (a b : List Char) : 0 ≤ matcherScore a b := by
  rw [matcherScore]
  by_cases h : a.length + b.length = 0
  · rw [if_pos h]; norm_num
  · rw [if_neg h]
    apply div_nonneg
    · positivity
    · positivity

/-- A perfect `ratio()` of `1.0` forces the two sequences to be equal. -/
lemma matcherScore_eq_one (a b : List Char) (h : matcherScore a b = 1) : a = b := by
  rw [matcherScore] at h
  by_cases hlen : a.length + b.length = 0
  · have ha : a = [] := List.length_eq_zero.mp (by omega)
    have hb : b = [] := List.length_eq_zero.mp (by omega)
    rw [ha, hb]
  · rw [if_neg hlen] at h
    have hpos : (0:ℚ) < (a.length : ℚ) + (b.length : ℚ) := by
      have hn : 0 < a.length + b.length := by omega
      exact_mod_cast hn
    rw [div_eq_one_iff_eq (ne_of_gt hpos)] at h
    have h' : 2 * matchingSize a b = a.length + b.length := by
      exact_mod_cast h
    have hM := matchingSize_le a b
    have hMa : matchingSize a b = a.length := by omega
    have hMb : matchingSize a b = b.length := by omega
    exact matchingSizeF_full _ _ a b hMa hMb

/-- State for scanning a page text from the right: pending newline run,
current segment, completed segments. -/
def splitStep (c : Char) (st : Nat × List Char × List (List Char)) :
    Nat × List Char × List (List Char) :=
  if c = '\n' then (st.1 + 1, st.2.1, st.2.2)
  else
    match st.1 with
    | 0 => (0, c :: st.2.1, st.2.2)
    | 1 => (0, c :: '\n' :: st.2.1, st.2.2)
    | _ + 2 => (0, [c], st.2.1 :: st.2.2)

/-- Model of `re.split(r'\n{2,}', s)`: split on maximal runs of two or
more newlines (single newlines are kept in the segments). -/
def splitBlank (s : List Char) : List (List Char) :=
  match s.foldr splitStep (0, [], []) with
  | (0, h, r) => h :: r
  | (1, h, r) => ('\n' :: h) :: r
  | (_ + 2, h, r) => [] :: h :: r


/-- A parsed chunk: sequence id (1-based across the document), trimmed
text, and the label of the page it starts on. -/
structure Chunk where
  id : Nat
  text : List Char
  page : List Char
  deriving DecidableEq

/-- Model of `DeepInspector.parse_text_chunks_with_location`, taking the
extracted `(page label, page text)` pairs as input: strip each page,
split on blank lines, strip each chunk, keep those longer than 10, and
number them consecutively. -/
def parse_text_chunks (pages : List (List Char × List Char)) : List Chunk :=
  (pages.flatMap (fun pg =>
    (((splitBlank (pyStrip pg.2)).map pyStrip).filter
      (fun c => decide (10 < c.length))).map (fun t => (t, pg.1)))).enum.map
    (fun p => ⟨p.1 + 1, p.2.1, p.2.2⟩)

/-- An emitted row of `compare_structure`. -/
structure CompResult where
  ref_page : List Char
  tgt_page : List Char
  score : ℚ
  preview : List Char
  deriving DecidableEq

/-- The 100-character preview: `text[:100].replace('\n', ' ') + "..."`. -/
def preview100 (t : List Char) : List Char := nlToSpace (t.take 100) ++ dots

/-- The page label `"-"` used when no target chunk was tracked. -/
def dashPage : List Char := "-".data

/-- One step of the inner loop of `compare_structure`: skip short target
chunks, otherwise keep the strictly best ratio seen so far (ties keep the
earlier chunk). -/
def bestStep (refClean : List Char) (best : ℚ × List Char) (tgt : Chunk) : ℚ × List Char :=
  if tgt.text.length < 50 then best
  else
    let r := ratio100 refClean (cleanLower tgt.text)
    if best.1 < r then (r, tgt.page) else best

/-- Model of `DeepInspector.compare_structure` on the extracted pages of
the two documents. -/
def compare_structure (refPages tgtPages : List (List Char × List Char)) :
    List CompResult :=
  let refData := parse_text_chunks refPages
  let tgtData := parse_text_chunks tgtPages
  let raw := refData.filterMap (fun ri =>
    if ri.text.length < 50 then none
    else
      let best := tgtData.foldl (bestStep (cleanLower ri.text)) (0, dashPage)
      if 15 < best.1 then
        some ⟨ri.page, best.2, roundTo1 best.1, preview100 ri.text⟩
      else none)
  raw.mergeSort (fun x y => decide (y.score ≤ x.score))


lemma ratio100_le (a b : List Char) : ratio100 a b ≤ 100 := by
  rw [ratio100]
  have h := matcherScore_le_one a b
  calc matcherScore a b * 100 ≤ 1 * 100 :=
        mul_le_mul_of_nonneg_right h (by norm_num)
    _ = 100 := one_mul 100

lemma ratio100_nonneg (a b : List Char) : 0 ≤ ratio100 a b := by
  rw [ratio100]
  have h := matcherScore_nonneg a b
  positivity

lemma ratio100_self (t : List Char) : ratio100 t t = 100 := by
  rw [ratio100, matcherScore_self, one_mul]

lemma ratio100_eq_imp (a b : List Char) (h : ratio100 a b = 100) : a = b := by
  rw [ratio100] at h
  have h1 : matcherScore a b = 1 := by
    have h100 : (100:ℚ) ≠ 0 := by norm_num
    field_simp at h
    linarith
  exact matcherScore_eq_one a b h1

/-- Once the tracked best reaches `100`, the inner loop never replaces it
(no ratio is strictly larger). -/
lemma foldl_bestStep_at_top (rc : List Char) :
    ∀ (l : List Chunk) (p : List Char),
      l.foldl (bestStep rc) (100, p) = (100, p) := by
  intro l
  induction l with
  | nil => intro p; rfl
  | cons t l ih =>
      intro p
      rw [List.foldl_cons]
      have hstep : bestStep rc (100, p) t = (100, p) := by
        rw [bestStep]
        split
        · rfl
        · have hle := ratio100_le rc (cleanLower t.text)
          have hnot : ¬ (((100:ℚ), p).1 < ratio100 rc (cleanLower t.text)) := by
            show ¬ (100:ℚ) < ratio100 rc (cleanLower t.text)
            linarith
          rw [if_neg hnot]
      rw [hstep, ih]

/-- While no processed qualifying target chunk has cleaned text equal to
the reference's, the tracked best stays strictly below `100`. -/
lemma foldl_bestStep_lt_top (rc : List Char) :
    ∀ (l : List Chunk) (s : ℚ) (p : List Char), s < 100 →
      (∀ t ∈ l, ¬ t.text.length < 50 → cleanLower t.text ≠ rc) →
      (l.foldl (bestStep rc) (s, p)).1 < 100 := by
  intro l
  induction l with
  | nil => intro s p hs _; exact hs
  | cons t l ih =>
      intro s p hs hne
      rw [List.foldl_cons]
      by_cases hlen : t.text.length < 50
      · have hstep : bestStep rc (s, p) t = (s, p) := by
          rw [bestStep, if_pos hlen]
        rw [hstep]
        exact ih s p hs (fun u hu => hne u (List.mem_cons_of_mem _ hu))
      · by_cases hlt : s < ratio100 rc (cleanLower t.text)
        · have hstep : bestStep rc (s, p) t = (ratio100 rc (cleanLower t.text), t.page) := by
            rw [bestStep, if_neg hlen]
            exact if_pos hlt
          rw [hstep]
          have hne100 : ratio100 rc (cleanLower t.text) ≠ 100 := by
            intro h100
            have := ratio100_eq_imp rc (cleanLower t.text) h100
            exact hne t (List.mem_cons_self _ _) hlen this.symm
          have hlt100 : ratio100 rc (cleanLower t.text) < 100 :=
            lt_of_le_of_ne (ratio100_le _ _) hne100
          exact ih _ _ hlt100 (fun u hu => hne u (List.mem_cons_of_mem _ hu))
        · have hstep : bestStep rc (s, p) t = (s, p) := by
            rw [bestStep, if_neg hlen]
            exact if_neg hlt
          rw [hstep]
          exact ih s p hs (fun u hu => hne u (List.mem_cons_of_mem _ hu))

/-- The inner loop of `compare_structure` on a target list containing a
chunk whose cleaned text equals the reference's cleaned text, with no
earlier qualifying duplicate: the tracked best is `(100, page of that
chunk)`. -/
lemma foldl_bestStep_first_dup (rc : List Char) (pre suf : List Chunk) (c : Chunk)
    (hq : ¬ c.text.length < 50) (hdup : cleanLower c.text = rc)
    (hpre : ∀ t ∈ pre, ¬ t.text.length < 50 → cleanLower t.text ≠ rc) :
    (pre ++ c :: suf).foldl (bestStep rc) (0, dashPage) = (100, c.page) := by
  rw [List.foldl_append]
  have hlt := foldl_bestStep_lt_top rc pre 0 dashPage (by norm_num) hpre
  rcases hpp : pre.foldl (bestStep rc) (0, dashPage) with ⟨s', p'⟩
  rw [hpp] at hlt
  have hstep : bestStep rc (s', p') c = (100, c.page) := by
    rw [bestStep, if_neg hq, hdup, ratio100_self]
    rw [if_pos]
    exact hlt
  rw [List.foldl_cons, hstep, foldl_bestStep_at_top]

lemma roundTo1_100 : roundTo1 100 = 100 := by
  norm_num [roundTo1, pyRoundHalfEven]

/-- Emission: a qualifying reference chunk whose inner loop ends with a
best score above `15` contributes exactly its row to the result list. -/
lemma compare_structure_mem (refPages tgtPages : List (List Char × List Char))
    (ri : Chunk) (hri : ri ∈ parse_text_chunks refPages)
    (hq : ¬ ri.text.length < 50) (b : ℚ × List Char)
    (hfold : (parse_text_chunks tgtPages).foldl
      (bestStep (cleanLower ri.text)) (0, dashPage) = b)
    (h15 : 15 < b.1) :
    (⟨ri.page, b.2, roundTo1 b.1, preview100 ri.text⟩ : CompResult) ∈
      compare_structure refPages tgtPages := by
  rw [compare_structure]
  rw [List.mem_mergeSort]
  apply List.mem_filterMap.mpr
  refine ⟨ri, hri, ?_⟩
  rw [if_neg hq, hfold, if_pos h15]

/-- C4 (amended): comparing a document's extracted pages with themselves,
every reference chunk of length at least 50 with no earlier qualifying
chunk of identical cleaned text yields an emitted result with score
exactly `100.0` and best-target page equal to its own page label. -/
theorem C4_identical_docs (pages : List (List Char × List Char)) (m : Nat)
    (hm : m < (parse_text_chunks pages).length)
    (hq : ¬ ((parse_text_chunks pages).get ⟨m, hm⟩).text.length < 50)
    (hnodup : ∀ c ∈ (parse_text_chunks pages).take m, ¬ c.text.length < 50 →
      cleanLower c.text ≠ cleanLower ((parse_text_chunks pages).get ⟨m, hm⟩).text) :
    (⟨((parse_text_chunks pages).get ⟨m, hm⟩).page,
      ((parse_text_chunks pages).get ⟨m, hm⟩).page, 100,
      preview100 ((parse_text_chunks pages).get ⟨m, hm⟩).text⟩ : CompResult) ∈
      compare_structure pages pages := by
  set L := parse_text_chunks pages with hL
  set c := L.get ⟨m, hm⟩ with hc
  have hsplit : L = L.take m ++ c :: L.drop (m + 1) := by
    rw [hc]
    rw [List.get_eq_getElem]
    rw [← List.drop_eq_getElem_cons hm]
    exact (List.take_append_drop m L).symm
  have hfold : L.foldl (bestStep (cleanLower c.text)) (0, dashPage) = (100, c.page) := by
    conv_lhs => rw [hsplit]
    exact foldl_bestStep_first_dup (cleanLower c.text) (L.take m) (L.drop (m + 1)) c hq rfl
      hnodup
  have := compare_structure_mem pages pages c (by rw [hc]; exact List.get_mem L m hm) hq
    (100, c.page) hfold (by norm_num)
  rw [roundTo1_100] at this
  exact this

/-- A 50-character paragraph used in the C4 instances. -/
def cexText : List Char := "a b c d e f g h i j k l m n o p q r s t u v w x yz".data

/-- A second 50-character paragraph with different cleaned content. -/
def cexTextB : List Char := "z y x w v u t s r q p o n m l k j i h g f e d c ba".data

/-- Pages of the counterexample document: the same paragraph on two
different pages. -/
def cexPages : List (List Char × List Char) :=
  [("1".data, cexText), ("2".data, cexText)]


/-- C4 (counterexample): on a document having the same 50-character
paragraph on pages 1 and 2, the reference chunk of page 2 is emitted with
best-target page "1" (the tie at score 100 keeps the first target chunk
found), so its best-target page differs from its own page label. -/
theorem C4_counterexample :
    (⟨"2".data, "1".data, 100, preview100 cexText⟩ : CompResult) ∈
      compare_structure cexPages cexPages ∧ ("1".data : List Char) ≠ "2".data := by
  constructor
  · have hL : parse_text_chunks cexPages =
        [⟨1, cexText, "1".data⟩, ⟨2, cexText, "2".data⟩] := by decide
    have hfold : (parse_text_chunks cexPages).foldl
        (bestStep (cleanLower cexText)) (0, dashPage) = (100, "1".data) := by
      rw [hL]
      have := foldl_bestStep_first_dup (cleanLower cexText) []
        [⟨2, cexText, "2".data⟩] ⟨1, cexText, "1".data⟩ (by decide) rfl (by simp)
      simpa using this
    have hmem := compare_structure_mem cexPages cexPages ⟨2, cexText, "2".data⟩
      (by rw [hL]; simp) (by decide) (100, "1".data) hfold (by norm_num)
    rw [roundTo1_100] at hmem
    exact hmem
  · decide

/-- Pages of the witness document: two different paragraphs on two pages. -/
def c4wPages : List (List Char × List Char) :=
  [("1".data, cexTextB), ("2".data, cexText)]

/-- C4 (witness): the amended theorem applied to a concrete two-page
document with distinct paragraphs; the page-2 chunk is emitted with score
`100.0` and its own page label. -/
theorem C4_witness :
    (1 < (parse_text_chunks c4wPages).length) ∧
    (⟨((parse_text_chunks c4wPages).get ⟨1, by decide⟩).page,
      ((parse_text_chunks c4wPages).get ⟨1, by decide⟩).page, 100,
      preview100 ((parse_text_chunks c4wPages).get ⟨1, by decide⟩).text⟩ : CompResult) ∈
      compare_structure c4wPages c4wPages :=
  ⟨by decide, C4_identical_docs c4wPages 1 (by decide) (by decide) (by decide)⟩

/-- Target chunks long enough to be scored (the spec's wording). -/
def qualifyingChunks (l : List Chunk) : List Chunk :=
  l.filter (fun t => decide (¬ t.text.length < 50))

/-- The best score of the spec: the maximum similarity ratio over the
qualifying target chunks (`0` when none qualifies). -/
def bestScoreSpec (rc : List Char) (tgts : List Chunk) : ℚ :=
  ((qualifyingChunks tgts).map (fun t => ratio100 rc (cleanLower t.text))).foldr max 0

/-- The page of the first qualifying target chunk attaining the best
score (ties keep the first found); `fallback` when none attains it. -/
def firstArgmaxPage (rc : List Char) (tgts : List Chunk) (fallback : List Char) : List Char :=
  match (qualifyingChunks tgts).find?
      (fun t => decide (ratio100 rc (cleanLower t.text) = bestScoreSpec rc tgts)) with
  | some t => t.page
  | none => fallback

lemma qualifyingChunks_cons_pos (t : Chunk) (tl : List Chunk) (h : ¬ t.text.length < 50) :
    qualifyingChunks (t :: tl) = t :: qualifyingChunks tl := by
  simp [qualifyingChunks, List.filter_cons, h]

lemma qualifyingChunks_cons_neg (t : Chunk) (tl : List Chunk) (h : t.text.length < 50) :
    qualifyingChunks (t :: tl) = qualifyingChunks tl := by
  simp [qualifyingChunks, List.filter_cons, h]

lemma foldr_max_nonneg (xs : List ℚ) : 0 ≤ xs.foldr max 0 := by
  induction xs with
  | nil => simp
  | cons x l ih =>
      rw [List.foldr_cons]
      exact le_trans ih (le_max_right x _)

lemma bestScoreSpec_nonneg (rc : List Char) (tgts : List Chunk) :
    0 ≤ bestScoreSpec rc tgts :=
  foldr_max_nonneg _

lemma foldr_max_attained (f : Chunk → ℚ) :
    ∀ (l : List Chunk), (l.map f).foldr max 0 ≠ 0 →
      ∃ t ∈ l, f t = (l.map f).foldr max 0 := by
  intro l
  induction l with
  | nil => intro h; simp at h
  | cons t l ih =>
      intro h
      rw [List.map_cons, List.foldr_cons] at h ⊢
      rcases le_total ((l.map f).foldr max 0) (f t) with hle | hle
      · exact ⟨t, List.mem_cons_self _ _, (max_eq_left hle).symm⟩
      · rw [max_eq_right hle] at h ⊢
        obtain ⟨u, hu, hval⟩ := ih h
        exact ⟨u, List.mem_cons_of_mem _ hu, hval⟩

lemma bestScoreSpec_attained (rc : List Char) (tgts : List Chunk)
    (h : bestScoreSpec rc tgts ≠ 0) :
    ∃ t ∈ qualifyingChunks tgts,
      ratio100 rc (cleanLower t.text) = bestScoreSpec rc tgts := by
  rw [bestScoreSpec] at h ⊢
  exact foldr_max_attained _ _ h

lemma bestScoreSpec_cons_pos (rc : List Char) (t : Chunk) (tl : List Chunk)
    (h : ¬ t.text.length < 50) :
    bestScoreSpec rc (t :: tl) =
      max (ratio100 rc (cleanLower t.text)) (bestScoreSpec rc tl) := by
  rw [bestScoreSpec, bestScoreSpec, qualifyingChunks_cons_pos t tl h, List.map_cons,
    List.foldr_cons]

lemma bestScoreSpec_cons_neg (rc : List Char) (t : Chunk) (tl : List Chunk)
    (h : t.text.length < 50) :
    bestScoreSpec rc (t :: tl) = bestScoreSpec rc tl := by
  rw [bestScoreSpec, bestScoreSpec, qualifyingChunks_cons_neg t tl h]

/-- The inner loop of `compare_structure`, related to the spec's
formulation: starting from a nonnegative tracked score `s`, the loop
returns the maximum qualifying ratio together with the page of the first
chunk attaining it whenever that maximum beats `s`, and leaves the state
untouched otherwise. -/
lemma foldl_bestStep_spec (rc : List Char) :
    ∀ (l : List Chunk) (s : ℚ) (p : List Char), 0 ≤ s →
      l.foldl (bestStep rc) (s, p) =
        if s < bestScoreSpec rc l then (bestScoreSpec rc l, firstArgmaxPage rc l p)
        else (s, p) := by
  intro l
  induction l with
  | nil =>
      intro s p hs
      rw [if_neg]
      · rfl
      · rw [bestScoreSpec]
        simp [qualifyingChunks]
        linarith
  | cons t tl ih =>
      intro s p hs
      rw [List.foldl_cons]
      by_cases hlen : t.text.length < 50
      · have hstep : bestStep rc (s, p) t = (s, p) := by rw [bestStep, if_pos hlen]
        rw [hstep, ih s p hs, bestScoreSpec_cons_neg rc t tl hlen]
        have hfap : firstArgmaxPage rc (t :: tl) p = firstArgmaxPage rc tl p := by
          rw [firstArgmaxPage, firstArgmaxPage, qualifyingChunks_cons_neg t tl hlen,
            bestScoreSpec_cons_neg rc t tl hlen]
        rw [hfap]
      · have hM : bestScoreSpec rc (t :: tl) =
            max (ratio100 rc (cleanLower t.text)) (bestScoreSpec rc tl) :=
          bestScoreSpec_cons_pos rc t tl hlen
        have hr0 : 0 ≤ ratio100 rc (cleanLower t.text) := ratio100_nonneg _ _
        have hB0 : 0 ≤ bestScoreSpec rc tl := bestScoreSpec_nonneg _ _
        have hfind : (qualifyingChunks (t :: tl)).find?
            (fun u => decide (ratio100 rc (cleanLower u.text) = bestScoreSpec rc (t :: tl)))
              = if ratio100 rc (cleanLower t.text) = bestScoreSpec rc (t :: tl) then some t
                else (qualifyingChunks tl).find?
                  (fun u => decide (ratio100 rc (cleanLower u.text)
                    = bestScoreSpec rc (t :: tl))) := by
          rw [qualifyingChunks_cons_pos t tl hlen, List.find?_cons]
          by_cases hrM : ratio100 rc (cleanLower t.text) = bestScoreSpec rc (t :: tl)
          · rw [if_pos hrM]
            have hd : decide (ratio100 rc (cleanLower t.text)
                = bestScoreSpec rc (t :: tl)) = true := by simpa using hrM
            rw [hd]
          · rw [if_neg hrM]
            have hd : decide (ratio100 rc (cleanLower t.text)
                = bestScoreSpec rc (t :: tl)) = false := by simpa using hrM
            rw [hd]
        by_cases hsr : s < ratio100 rc (cleanLower t.text)
        · have hstep : bestStep rc (s, p) t = (ratio100 rc (cleanLower t.text), t.page) := by
            rw [bestStep, if_neg hlen]
            exact if_pos hsr
          rw [hstep, ih (ratio100 rc (cleanLower t.text)) t.page hr0]
          by_cases hrB : ratio100 rc (cleanLower t.text) < bestScoreSpec rc tl
          · rw [if_pos hrB]
            have hMB : bestScoreSpec rc (t :: tl) = bestScoreSpec rc tl := by
              rw [hM]
              exact max_eq_right (le_of_lt hrB)
            have hcond : s < bestScoreSpec rc (t :: tl) := by rw [hMB]; linarith
            rw [if_pos hcond, hMB]
            have hBne : bestScoreSpec rc tl ≠ 0 := by linarith
            obtain ⟨u, hu, huval⟩ := bestScoreSpec_attained rc tl hBne
            have hfind_some : (qualifyingChunks tl).find?
                (fun u => decide (ratio100 rc (cleanLower u.text) = bestScoreSpec rc tl))
                  ≠ none := by
              rw [Ne, List.find?_eq_none]
              push_neg
              exact ⟨u, hu, by simpa using huval⟩
            have hfap1 : firstArgmaxPage rc tl t.page = firstArgmaxPage rc tl p := by
              rw [firstArgmaxPage, firstArgmaxPage]
              cases hfo : (qualifyingChunks tl).find?
                  (fun u => decide (ratio100 rc (cleanLower u.text)
                    = bestScoreSpec rc tl)) with
              | none => exact absurd hfo hfind_some
              | some u => rfl
            rw [hfap1]
            have hfap2 : firstArgmaxPage rc (t :: tl) p = firstArgmaxPage rc tl p := by
              rw [firstArgmaxPage, firstArgmaxPage, hfind,
                if_neg (by rw [hMB]; exact ne_of_lt hrB), hMB]
            rw [hfap2]
          · have hMB : bestScoreSpec rc (t :: tl) = ratio100 rc (cleanLower t.text) := by
              rw [hM]
              exact max_eq_left (le_of_not_lt hrB)
            rw [if_neg hrB]
            have hcond : s < bestScoreSpec rc (t :: tl) := by rw [hMB]; exact hsr
            rw [if_pos hcond, hMB]
            have hfap : firstArgmaxPage rc (t :: tl) p = t.page := by
              rw [firstArgmaxPage, hfind, if_pos hMB.symm]
            rw [hfap]
        · have hstep : bestStep rc (s, p) t = (s, p) := by
            rw [bestStep, if_neg hlen]
            exact if_neg hsr
          rw [hstep, ih s p hs]
          have hrs : ratio100 rc (cleanLower t.text) ≤ s := le_of_not_lt hsr
          by_cases hsB : s < bestScoreSpec rc tl
          · rw [if_pos hsB]
            have hMB : bestScoreSpec rc (t :: tl) = bestScoreSpec rc tl := by
              rw [hM]
              exact max_eq_right (by linarith)
            have hcond : s < bestScoreSpec rc (t :: tl) := by rw [hMB]; exact hsB
            rw [if_pos hcond, hMB]
            have hfap : firstArgmaxPage rc (t :: tl) p = firstArgmaxPage rc tl p := by
              rw [firstArgmaxPage, firstArgmaxPage, hfind]
              have hrne : ¬ ratio100 rc (cleanLower t.text) = bestScoreSpec rc (t :: tl) := by
                rw [hMB]
                intro hcon
                rw [hcon] at hrs
                linarith
              rw [if_neg hrne, hMB]
            rw [hfap]
          · rw [if_neg hsB]
            have hcond : ¬ s < bestScoreSpec rc (t :: tl) := by
              rw [hM]
              exact not_lt.mpr (max_le hrs (le_of_not_lt hsB))
            rw [if_neg hcond]

theorem C5_best_tracking (refPages tgtPages : List (List Char × List Char)) :
    compare_structure refPages tgtPages =
      ((parse_text_chunks refPages).filterMap (fun ri =>
        if ri.text.length < 50 then none
        else if 15 < bestScoreSpec (cleanLower ri.text) (parse_text_chunks tgtPages)
        then some ⟨ri.page,
          firstArgmaxPage (cleanLower ri.text) (parse_text_chunks tgtPages) dashPage,
          roundTo1 (bestScoreSpec (cleanLower ri.text) (parse_text_chunks tgtPages)),
          preview100 ri.text⟩
        else none)).mergeSort (fun x y => decide (y.score ≤ x.score)) ∧
    (compare_structure refPages tgtPages).Pairwise (fun x y => y.score ≤ x.score) := by
  have hraw : (parse_text_chunks refPages).filterMap (fun ri =>
      if ri.text.length < 50 then none
      else
        let best := (parse_text_chunks tgtPages).foldl
          (bestStep (cleanLower ri.text)) (0, dashPage)
        if 15 < best.1 then
          some (⟨ri.page, best.2, roundTo1 best.1, preview100 ri.text⟩ : CompResult)
        else none) =
      (parse_text_chunks refPages).filterMap (fun ri =>
        if ri.text.length < 50 then none
        else if 15 < bestScoreSpec (cleanLower ri.text) (parse_text_chunks tgtPages)
        then some ⟨ri.page,
          firstArgmaxPage (cleanLower ri.text) (parse_text_chunks tgtPages) dashPage,
          roundTo1 (bestScoreSpec (cleanLower ri.text) (parse_text_chunks tgtPages)),
          preview100 ri.text⟩
        else none) := by
    apply List.filterMap_congr
    intro ri _
    by_cases hlen : ri.text.length < 50
    · rw [if_pos hlen, if_pos hlen]
    · rw [if_neg hlen, if_neg hlen]
      rw [foldl_bestStep_spec (cleanLower ri.text) (parse_text_chunks tgtPages) 0 dashPage
        le_rfl]
      by_cases h0 : 0 < bestScoreSpec (cleanLower ri.text) (parse_text_chunks tgtPages)
      · rw [if_pos h0]
      · rw [if_neg h0]
        have hz : bestScoreSpec (cleanLower ri.text) (parse_text_chunks tgtPages) = 0 :=
          le_antisymm (le_of_not_lt h0) (bestScoreSpec_nonneg _ _)
        rw [hz]
        norm_num
  constructor
  · rw [compare_structure, hraw]
  · rw [compare_structure]
    have hsorted := @List.sorted_mergeSort CompResult
      (fun (x y : CompResult) => decide (y.score ≤ x.score))
      (fun a b c hab hbc => by
        simp only [decide_eq_true_eq] at *
        linarith)
      (fun a b => by
        simp only [Bool.or_eq_true, decide_eq_true_eq]
        exact le_total b.score a.score)
      ((parse_text_chunks refPages).filterMap (fun ri =>
        if ri.text.length < 50 then none
        else
          let best := (parse_text_chunks tgtPages).foldl
            (bestStep (cleanLower ri.text)) (0, dashPage)
          if 15 < best.1 then
            some (⟨ri.page, best.2, roundTo1 best.1, preview100 ri.text⟩ : CompResult)
          else none))
    exact hsorted.imp (fun h => of_decide_eq_true h)
